import Mathlib

/-!
Verification of the core crawl orchestrator of the `crawlr` repository
(`internal/crawler/crawler.go`).  The Go functions are shallowly embedded as
executable Lean functions: strings are Lean `String`s manipulated through their
character lists, the Go `map[string]bool` visited set is an insertion-ordered
duplicate-free `List String`, the remote crawl service is scripted as a list of
per-dispatch outcomes, and the unbounded `for` loop of the orchestrator is run
on explicit fuel.  The Go standard library pieces the crawler calls
(`net/url.Parse`/`Hostname`/`ResolveReference`, `regexp` href matching) are
modelled by small executable functions, documented at their definitions; every
function of the repository itself is translated clause by clause from the
source.
-/

namespace Crawlr

/-! ### Character-list string primitives -/

/-- `listStartsWith l p` is true when `p` is an initial segment of `l`
(character-level model of Go `strings.HasPrefix`). -/
def listStartsWith : List Char → List Char → Bool
  | _, [] => true
  | [], _ :: _ => false
  | c :: cs, p :: ps => c == p && listStartsWith cs ps

/-- `listContainsSub l p` is true when `p` occurs contiguously inside `l`
(character-level model of Go `strings.Contains`). -/
def listContainsSub : List Char → List Char → Bool
  | [], p => listStartsWith [] p
  | c :: cs, p => listStartsWith (c :: cs) p || listContainsSub cs p

def strStartsWith (s pat : String) : Bool := listStartsWith s.data pat.data

def strContains (s pat : String) : Bool := listContainsSub s.data pat.data

def strEndsWith (s pat : String) : Bool :=
  listStartsWith s.data.reverse pat.data.reverse

/-- ASCII lower-casing of one character (model of Go `strings.ToLower`,
which the crawler only applies to ASCII URLs). -/
def charLower (c : Char) : Char :=
  if 'A' ≤ c ∧ c ≤ 'Z' then Char.ofNat (c.toNat + 32) else c

def strLower (s : String) : String := ⟨s.data.map charLower⟩

/-- Characters treated as whitespace by the model of Go `strings.TrimSpace`. -/
def isSpaceChar (c : Char) : Bool :=
  c == ' ' || c == '\t' || c == '\n' || c == '\r'

/-- Model of Go `strings.TrimSpace` (restricted to ASCII whitespace). -/
def trimSpace (s : String) : String :=
  ⟨((s.data.dropWhile isSpaceChar).reverse.dropWhile isSpaceChar).reverse⟩

/-! ### Model of the Go `net/url` pieces used by the crawler

The crawler calls `neturl.Parse` followed by `Hostname()` (in the filters) and
`base.ResolveReference(rel).String()` (in `makeAbsoluteURL`).  These standard
library functions are modelled for the URL shapes exercised here: a URL
`http://host/...` or `https://host/...` yields the host segment before the
first `/`, `?` or `#`; a host containing a space, or any ASCII control
character in the string, is a parse error (Go rejects both); a string without
an `http`/`https` scheme parses with an empty host.  Ports and IPv6 brackets
are outside the modelled fragment. -/

def hasCtl (s : String) : Bool := s.data.any (fun c => c.toNat < 32)

def hostChar (c : Char) : Bool := !(c == '/' || c == '?' || c == '#')

/-- Splits off an `http://` or `https://` scheme, returning the scheme
characters and the remainder. -/
def schemeSplit (l : List Char) : Option (List Char × List Char) :=
  if listStartsWith l ("http://".data) then some ("http://".data, l.drop 7)
  else if listStartsWith l ("https://".data) then some ("https://".data, l.drop 8)
  else none

/-- Model of Go `neturl.Parse(s)` followed by `.Hostname()`: `none` is a parse
error, `some h` the extracted host. -/
def hostOf (s : String) : Option String :=
  if hasCtl s then none
  else
    match schemeSplit s.data with
    | none => some ""
    | some (_, rest) =>
        let host := rest.takeWhile hostChar
        if host.contains ' ' then none else some ⟨host⟩

/-- Everything of `path` up to and including its last `/` (the RFC 3986 merge
step used by `ResolveReference`); an empty directory becomes `/`. -/
def dirOf (path : List Char) : List Char :=
  let d := (path.reverse.dropWhile (fun c => !(c == '/'))).reverse
  if d.isEmpty then ['/'] else d

/-- Model of `base.ResolveReference(rel).String()` for the parse model above:
`none` when either side fails to parse, otherwise the resolved absolute URL. -/
def resolveRef (base rel : String) : Option String :=
  if hasCtl rel || hasCtl base then none
  else
    match schemeSplit base.data with
    | none => some rel
    | some (sch, rest) =>
        let host := rest.takeWhile hostChar
        if host.contains ' ' then none
        else
          let path := rest.drop host.length
          if listStartsWith rel.data ['/'] then some ⟨sch ++ host ++ rel.data⟩
          else some ⟨sch ++ host ++ dirOf path ++ rel.data⟩

/-! ### Link extraction (`ExtractURLsFromHTML`, crawler.go:258-323) -/

/-- `makeAbsoluteURL` (crawler.go:307): a scheme-prefixed URL is kept as is,
anything else is resolved against the page URL; `none` is the error return. -/
def makeAbsoluteURL (url baseURL : String) : Option String :=
  if strStartsWith url "http://" || strStartsWith url "https://" then some url
  else resolveRef baseURL url

def quoteChar (c : Char) : Bool := c == '"' || c == '\''

/-- After the literal `href` inside a tag: `\s*=\s*["']([^"']+)["']`. -/
def parseHrefTail (l : List Char) : Option (List Char) :=
  match l.dropWhile isSpaceChar with
  | '=' :: l2 =>
      match l2.dropWhile isSpaceChar with
      | q :: l4 =>
          if quoteChar q then
            let cap := l4.takeWhile (fun c => !(quoteChar c))
            if cap.isEmpty then none
            else
              match l4.drop cap.length with
              | q2 :: _ => if quoteChar q2 then some cap else none
              | [] => none
          else none
      | [] => none
  | _ => none

/-- Scans a tag body for `href=...` captures; the last successful capture wins,
mirroring the greedy `[^>]+` of the Go regular expression. -/
def findHref : List Char → Option (List Char) → Option (List Char)
  | [], acc => acc
  | c :: rest, acc =>
      let acc' :=
        if listStartsWith (c :: rest) ("href".data) then
          match parseHrefTail (rest.drop 3) with
          | some cap => some cap
          | none => acc
        else acc
      findHref rest acc'

/-- Fuel-driven scan of the page body for the Go regular expression
`<a[^>]+href\s*=\s*["']([^"']+)["'][^>]*>` (crawler.go:260), modelled for
anchor tags whose attribute values contain no `>`: at each `<a` the characters
up to the closing `>` are searched (from offset one, since `[^>]+` needs at
least one character) for the last parseable `href` capture. -/
def scanA : Nat → List Char → List String
  | 0, _ => []
  | _ + 1, [] => []
  | f + 1, c :: rest =>
      if listStartsWith (c :: rest) ("<a".data) then
        let tail := rest.drop 1
        let inside := tail.takeWhile (fun ch => !(ch == '>'))
        if inside.length < tail.length then
          match inside with
          | [] => scanA f rest
          | _ :: insideRest =>
              match findHref insideRest none with
              | some cap => String.mk cap :: scanA f (tail.drop (inside.length + 1))
              | none => scanA f rest
        else scanA f rest
      else scanA f rest

/-- The ordered list of raw `href` captures of a page body. -/
def hrefCaptures (html : String) : List String := scanA html.data.length html.data

/-- The skip test of crawler.go:274: anchors, javascript and mailto
candidates are dropped before resolution. -/
def skipCandidate (u : String) : Bool :=
  strStartsWith u "#" || strStartsWith u "javascript:" || strStartsWith u "mailto:"

/-- The body of the capture loop of `ExtractURLsFromHTML` (crawler.go:266-296):
trim, skip non-navigable schemes, make absolute (errors skipped), drop
already-seen absolute URLs. -/
def extractLoop (baseURL : String) : List String → List String → List String
  | [], _ => []
  | cap :: rest, seen =>
      let u := trimSpace cap
      if skipCandidate u then extractLoop baseURL rest seen
      else
        match makeAbsoluteURL u baseURL with
        | none => extractLoop baseURL rest seen
        | some a =>
            if seen.contains a then extractLoop baseURL rest seen
            else a :: extractLoop baseURL rest (a :: seen)

/-- `ExtractURLsFromHTML` (crawler.go:258): the Go error result is always
`nil`, so the embedding returns the list alone. -/
def ExtractURLsFromHTML (html baseURL : String) : List String :=
  extractLoop baseURL (hrefCaptures html) []

/-! ### Priority scorer (`prioritizeURLs`, crawler.go:604-693) -/

def discoveryPatterns : List String :=
  ["/overview", "/docs", "/documentation", "/api", "/components", "/reference",
   "/guides", "/examples", "/tutorials", "/index", "/introduction",
   "/getting-started"]

structure URLScore where
  url : String
  score : Int
deriving DecidableEq

/-- The score assigned by crawler.go:632-663: +10 for at most one discovery
pattern (the Go loop breaks after the first), +8 for `/list`, +3 for a
trailing slash, +2 when no `#` occurs, −5 once for demo/example/playground. -/
def scoreURL (url : String) : Int :=
  let lower := strLower url
  (if discoveryPatterns.any (fun p => strContains lower p) then 10 else 0) +
  (if strContains lower "/list" then 8 else 0) +
  (if strEndsWith lower "/" then 3 else 0) +
  (if !(strContains lower "#") then 2 else 0) +
  (if strContains lower "/demo" || strContains lower "/example" ||
      strContains lower "/playground" then -5 else 0)

/-- Swap of two positions of a list (the Go parallel assignment
`scoredURLs[i], scoredURLs[j] = scoredURLs[j], scoredURLs[i]`). -/
def swapIJ (l : List URLScore) (i j : Nat) : List URLScore :=
  match l.get? i, l.get? j with
  | some x, some y => (l.set i y).set j x
  | _, _ => l

/-- The comparison `scoredURLs[j].Score > scoredURLs[i].Score` of
crawler.go:668. -/
def cmpAt (l : List URLScore) (i j : Nat) : Bool :=
  match l.get? j, l.get? i with
  | some y, some x => decide (y.score > x.score)
  | _, _ => false

/-- The inner loop of the sort at crawler.go:666-672: for `j` from its start
value while `j < length`, swap positions `i` and `j` when `score j > score i`.
The fuel is at least the list length at every call. -/
def swapInner (i : Nat) : Nat → Nat → List URLScore → List URLScore
  | _, 0, l => l
  | j, f + 1, l =>
      if j < l.length then
        swapInner i (j + 1) f (if cmpAt l i j then swapIJ l i j else l)
      else l

/-- The outer loop of the sort at crawler.go:666-672: `i` from its start value
while `i < length - 1`. -/
def swapOuter : Nat → Nat → List URLScore → List URLScore
  | _, 0, l => l
  | i, f + 1, l =>
      if i + 1 < l.length then swapOuter (i + 1) f (swapInner i (i + 1) l.length l)
      else l

/-- `prioritizeURLs` (crawler.go:604): score every URL, run the
selection-style swap sort, and project the URLs back out. -/
def prioritizeURLs (urls : List String) : List String :=
  if urls.length ≤ 1 then urls
  else
    let scored := urls.map (fun u => URLScore.mk u (scoreURL u))
    (swapOuter 0 scored.length scored).map URLScore.url

/-! ### Domain filter (`filterURLsForRecursive`, crawler.go:559-600) -/

/-- The candidate loop of crawler.go:572-587: skip visited URLs, skip
candidates that fail to parse, keep exact host matches. -/
def filterLoop (baseDomain : String) (visited : List String) : List String → List String
  | [] => []
  | u :: rest =>
      if visited.contains u then filterLoop baseDomain visited rest
      else
        match hostOf u with
        | none => filterLoop baseDomain visited rest
        | some d =>
            if d == baseDomain then u :: filterLoop baseDomain visited rest
            else filterLoop baseDomain visited rest

/-- `filterURLsForRecursive` (crawler.go:559): when the seed URL fails to
parse the function logs and returns the input list unchanged (crawler.go:567);
otherwise it filters by host and visited set and sorts by priority. -/
def filterURLsForRecursive (urls : List String) (baseURL : String)
    (visited : List String) : List String :=
  match hostOf baseURL with
  | none => urls
  | some d => prioritizeURLs (filterLoop d visited urls)

/-! ### Batch dispatch with retry (`StartCrawlWithRetry`, crawler.go:703-738) -/

/-- Observable trace of one `StartCrawlWithRetry` call: whether some attempt
succeeded (a `nil` error return), how many attempts (calls to
`StartCrawlWithConfig`) were made, and the backoff waits inserted, in seconds
and in order. -/
structure RetryTrace where
  ok : Bool
  attempts : Nat
  waits : List Nat
deriving DecidableEq

/-- The retry loop of crawler.go:706-735.  `outcome k` is true when the k-th
attempt (0-based) returns without error; `cancel k` is true when the context
is cancelled during the backoff wait before attempt `k` (the `ctx.Done` arm of
the `select` at crawler.go:716-721, which aborts with `ctx.Err()`).  The
remaining-iterations argument starts at `maxRetries + 1`. -/
def retryLoop (outcome : Nat → Bool) (cancel : Nat → Bool) : Nat → Nat → RetryTrace
  | _, 0 => ⟨false, 0, []⟩
  | attempt, rem + 1 =>
      if attempt == 0 then
        if outcome 0 then ⟨true, 1, []⟩
        else
          let t := retryLoop outcome cancel 1 rem
          ⟨t.ok, t.attempts + 1, t.waits⟩
      else
        if cancel attempt then ⟨false, 0, []⟩
        else if outcome attempt then ⟨true, 1, [attempt * attempt]⟩
        else
          let t := retryLoop outcome cancel (attempt + 1) rem
          ⟨t.ok, t.attempts + 1, attempt * attempt :: t.waits⟩

/-- `StartCrawlWithRetry` (crawler.go:703): the loop runs `attempt` from `0`
to `maxRetries` inclusive, waiting `attempt * attempt` seconds before each
retry (crawler.go:715). -/
def StartCrawlWithRetry (outcome : Nat → Bool) (cancel : Nat → Bool)
    (maxRetries : Nat) : RetryTrace :=
  retryLoop outcome cancel 0 (maxRetries + 1)

/-- The literal `maxRetries` argument the orchestrator passes to
`StartCrawlWithRetry` for every batch (crawler.go:429). -/
def orchestratorBatchMaxRetries : Nat := 1

/-! ### The batch recursive crawl orchestrator
(`StartBatchRecursiveCrawling`, crawler.go:337-516)

The remote service is scripted as a list of per-dispatch outcomes consumed in
order: `none` is a failed `StartCrawlWithRetry` call (all attempts errored),
`some rs` a successful one with per-URL results `rs`; an exhausted script also
counts as a failure.  Only the `url`, `html` and per-URL `success` fields of a
result are modelled — they are the only ones the orchestrator reads or that
the claims mention. -/

structure PageResult where
  url : String
  html : String
  success : Bool
deriving DecidableEq

structure URLWithDepth where
  url : String
  depth : Nat
deriving DecidableEq

structure CrawlParams where
  startURL : String
  maxDepth : Nat
  maxURLs : Nat
  batchSize : Nat
deriving DecidableEq

/-- Orchestrator state: the frontier, the insertion-ordered visited set
(`visited[item.URL] = true` on a Go map adds each URL at most once), the
aggregated results, the remaining scripted responses, and two traces — the
URL list of every dispatched batch and every entry ever enqueued. -/
structure CrawlState where
  frontier : List URLWithDepth
  visited : List String
  results : List PageResult
  responses : List (Option (List PageResult))
  batches : List (List String)
  enqueued : List URLWithDepth
deriving DecidableEq

/-- Marking a URL visited (`visited[item.URL] = true`, crawler.go:425). -/
def insertVisited (v : List String) (u : String) : List String :=
  if v.contains u then v else v ++ [u]

/-- The result loop of crawler.go:444-475, pairing result `i` with
`currentBatch[i]` positionally: a result whose batch entry has depth strictly
below `maxDepth` contributes its extracted, filtered links at `depth + 1`, and
each link is enqueued only while `len(visited) < maxURLs` (the visited set is
not modified inside this loop, so the check is constant across it). -/
def extendItems (startURL : String) (maxDepth maxURLs : Nat) (visited : List String) :
    List URLWithDepth → List PageResult → List URLWithDepth
  | _, [] => []
  | [], _ :: _ => []
  | e :: es, r :: rs =>
      (if e.depth < maxDepth then
        (if visited.length < maxURLs then
          (filterURLsForRecursive (ExtractURLsFromHTML r.html r.url) startURL
              visited).map (fun u => URLWithDepth.mk u (e.depth + 1))
         else [])
       else []) ++ extendItems startURL maxDepth maxURLs visited es rs

/-- `batchSizeToProcess` (crawler.go:388). -/
def bstpOf (p : CrawlParams) (s : CrawlState) : Nat :=
  min p.batchSize (min s.frontier.length (p.maxURLs - s.results.length))

/-- `currentBatch` (crawler.go:394-405): the first `batchSizeToProcess`
frontier entries that are neither visited nor beyond `maxDepth`. -/
def batchOf (p : CrawlParams) (s : CrawlState) : List URLWithDepth :=
  (s.frontier.take (bstpOf p s)).filter
    (fun e => !(s.visited.contains e.url) && decide (e.depth ≤ p.maxDepth))

/-- The visited set after marking the batch (crawler.go:422-426). -/
def visitedAfter (p : CrawlParams) (s : CrawlState) : List String :=
  ((batchOf p s).map URLWithDepth.url).foldl insertVisited s.visited

/-- One iteration of the orchestrator loop (crawler.go:375-489); `none` means
the loop exits.  The context check at the top of the iteration
(crawler.go:377-385) only logs: its `break` statement leaves the enclosing
`select`, not the `for` loop, so cancellation does not alter control flow and
no cancellation input appears here. -/
def crawlStep (p : CrawlParams) (s : CrawlState) : Option CrawlState :=
  if s.frontier.isEmpty then none
  else if p.maxURLs ≤ s.results.length then none
  else if bstpOf p s = 0 then none
  else if (batchOf p s).isEmpty then
    some ⟨s.frontier.drop (bstpOf p s), s.visited, s.results, s.responses,
          s.batches, s.enqueued⟩
  else
    match s.responses with
    | [] =>
        some ⟨s.frontier.drop (bstpOf p s), visitedAfter p s, s.results, [],
              s.batches ++ [(batchOf p s).map URLWithDepth.url], s.enqueued⟩
    | none :: rest =>
        some ⟨s.frontier.drop (bstpOf p s), visitedAfter p s, s.results, rest,
              s.batches ++ [(batchOf p s).map URLWithDepth.url], s.enqueued⟩
    | some rs :: rest =>
        some ⟨extendItems p.startURL p.maxDepth p.maxURLs (visitedAfter p s)
                (batchOf p s) (rs.take (batchOf p s).length)
                ++ s.frontier.drop (bstpOf p s),
              visitedAfter p s,
              s.results ++ rs.take (batchOf p s).length, rest,
              s.batches ++ [(batchOf p s).map URLWithDepth.url],
              s.enqueued ++ extendItems p.startURL p.maxDepth p.maxURLs
                (visitedAfter p s) (batchOf p s) (rs.take (batchOf p s).length)⟩

/-- The orchestrator loop on explicit fuel; `cancelled n` scripts whether the
context is cancelled when `n` units of fuel remain.  It is passed through
untouched because the cancellation check of crawler.go:377-385 has no effect
on the loop (see `crawlStep`). -/
def crawlLoop (p : CrawlParams) (cancelled : Nat → Bool) : Nat → CrawlState → CrawlState
  | 0, s => s
  | fuel + 1, s =>
      match crawlStep p s with
      | none => s
      | some s1 => crawlLoop p cancelled fuel s1

/-- The observable outcome of a run: the combined response built at
crawler.go:500-515 (`Success: len(allResults) > 0`) plus the final visited
set and the two traces.  The Go function always returns this response with a
`nil` error (crawler.go:515). -/
structure CrawlOutcome where
  success : Bool
  results : List PageResult
  visited : List String
  batches : List (List String)
  enqueued : List URLWithDepth
deriving DecidableEq

/-- `StartBatchRecursiveCrawling` (crawler.go:337): the frontier starts as the
seed at depth 0 (crawler.go:346), the visited set empty, and the loop runs
until the frontier drains, the result cap is reached, or fuel runs out. -/
def StartBatchRecursiveCrawling (p : CrawlParams) (cancelled : Nat → Bool)
    (responses : List (Option (List PageResult))) (fuel : Nat) : CrawlOutcome :=
  let s0 : CrawlState :=
    ⟨[⟨p.startURL, 0⟩], [], [], responses, [], [⟨p.startURL, 0⟩]⟩
  let s := crawlLoop p cancelled fuel s0
  ⟨!s.results.isEmpty, s.results, s.visited, s.batches, s.enqueued⟩

/-! ### Specification-side definitions used by the theorems -/

def isHttpAbs (u : String) : Bool :=
  strStartsWith u "http://" || strStartsWith u "https://"

/-- One selection pass: carries the running maximum and returns it together
with the displaced elements in their final positions — the functional content
of one inner loop of the swap sort of `prioritizeURLs`. -/
def selInner (c : URLScore) : List URLScore → URLScore × List URLScore
  | [] => (c, [])
  | x :: xs =>
      if x.score > c.score then ((selInner x xs).1, c :: (selInner x xs).2)
      else ((selInner c xs).1, x :: (selInner c xs).2)

/-- Fuel-driven selection sort; it agrees with the swap sort of
`prioritizeURLs` whenever the fuel covers the list length. -/
def selSortF : Nat → List URLScore → List URLScore
  | 0, l => l
  | _ + 1, [] => []
  | _ + 1, [x] => [x]
  | f + 1, x :: y :: xs =>
      (selInner x (y :: xs)).1 :: selSortF f (selInner x (y :: xs)).2

/-- First-seen deduplication against an accumulator of already-seen URLs: the
specification of the `seen` map of `ExtractURLsFromHTML`. -/
def dedupGo (seen : List String) : List String → List String
  | [] => []
  | x :: xs =>
      if seen.contains x then dedupGo seen xs else x :: dedupGo (x :: seen) xs

/-- The stream of successfully resolved candidates of a capture list, before
deduplication: trim, drop non-navigable schemes, resolve to absolute form. -/
def candidateStream (caps : List String) (baseURL : String) : List String :=
  caps.filterMap (fun cap =>
    if skipCandidate (trimSpace cap) then none
    else makeAbsoluteURL (trimSpace cap) baseURL)

/-- Forces the per-URL success flag of a result. -/
def setSuccess (r : PageResult) : PageResult := ⟨r.url, r.html, true⟩

/-- Forces the per-URL success flag of every result of every scripted
response. -/
def respsMap (rs : List (Option (List PageResult))) :
    List (Option (List PageResult)) :=
  rs.map (Option.map (List.map setSuccess))

/-- Forces the per-URL success flag throughout an orchestrator state. -/
def stateMap (s : CrawlState) : CrawlState :=
  ⟨s.frontier, s.visited, s.results.map setSuccess, respsMap s.responses,
   s.batches, s.enqueued⟩

/-! ### Concrete crawl scenarios

Each scenario scripts a seed, crawl parameters and service responses; the
pages' bodies are plain anchor tags, inside the fragment on which the
extraction model agrees exactly with the Go regular expression. -/

/-- A frontier window holding the same URL twice: the seed links to pages `a`
and `b`, both of which link to `x`. -/
def dupRun : CrawlOutcome :=
  StartBatchRecursiveCrawling ⟨"http://h/", 2, 10, 5⟩ (fun _ => false)
    [some [⟨"http://h/", "<a href=\"http://h/a\"><a href=\"http://h/b\">", true⟩],
     some [⟨"http://h/a", "<a href=\"http://h/x\">", true⟩,
           ⟨"http://h/b", "<a href=\"http://h/x\">", true⟩],
     some [⟨"http://h/x", "", true⟩, ⟨"http://h/x", "", true⟩]] 9

/-- `maxURLs = 2` with a failing second dispatch: the seed links to three
pages, the dispatch of `a` fails, the dispatch of `b` succeeds. -/
def overCapRun : CrawlOutcome :=
  StartBatchRecursiveCrawling ⟨"http://h/", 2, 2, 2⟩ (fun _ => false)
    [some [⟨"http://h/",
        "<a href=\"http://h/a\"><a href=\"http://h/b\"><a href=\"http://h/c\">",
        true⟩],
     none,
     some [⟨"http://h/b", "", true⟩]] 9

/-- A run whose context is cancelled from the very start; the dispatch of the
seed batch fails (as it would under a cancelled context). -/
def cancelledRun : CrawlOutcome :=
  StartBatchRecursiveCrawling ⟨"http://h/", 2, 10, 5⟩ (fun _ => true) [none] 9

/-- A run whose seed URL fails to parse; the seed page links to a URL on a
different host. -/
def badSeedRun : CrawlOutcome :=
  StartBatchRecursiveCrawling ⟨"http:// /", 2, 10, 5⟩ (fun _ => false)
    [some [⟨"http:// /", "<a href=\"http://e/x\">", true⟩],
     some [⟨"http://e/x", "", true⟩]] 9

/-- A run whose first per-URL result is marked unsuccessful but still carries
a link in its body. -/
def failedFlagRun : CrawlOutcome :=
  StartBatchRecursiveCrawling ⟨"http://h/", 2, 10, 5⟩ (fun _ => false)
    [some [⟨"http://h/", "<a href=\"http://h/a\">", false⟩],
     some [⟨"http://h/a", "", true⟩]] 9

/-! ### List helper lemmas -/

theorem listStartsWith_nil : ∀ l : List Char, listStartsWith l [] = true := by
  intro l; cases l <;> rfl

theorem listStartsWith_append_self : ∀ a b : List Char,
    listStartsWith (a ++ b) a = true := by
  intro a b
  induction a with
  | nil => simpa using listStartsWith_nil b
  | cons c cs ih => simp [listStartsWith, ih]

theorem get?_append_mid {α : Type} : ∀ (P : List α) (c : α) (Q : List α),
    (P ++ c :: Q).get? P.length = some c := by
  intro P c Q
  induction P with
  | nil => rfl
  | cons a P ih => simpa using ih

theorem set_append_mid {α : Type} : ∀ (P : List α) (c y : α) (Q : List α),
    (P ++ c :: Q).set P.length y = P ++ y :: Q := by
  intro P c y Q
  induction P with
  | nil => rfl
  | cons a P ih => simp [List.set, ih]

theorem head?_append_some {α : Type} (l m : List α) (a : α)
    (h : l.head? = some a) : (l ++ m).head? = some a := by
  cases l with
  | nil => simp at h
  | cons x xs => simpa using h

theorem cons_set_perm {α : Type} :
    ∀ (t : List α) (k : Nat) (y a : α), t.get? k = some y →
      List.Perm (y :: t.set k a) (a :: t) := by
  intro t
  induction t with
  | nil => intro k y a h; simp at h
  | cons b t ih =>
      intro k y a h
      cases k with
      | zero =>
          simp only [List.get?] at h
          injection h with h
          subst h
          exact List.Perm.swap a b t
      | succ k =>
          have h' : t.get? k = some y := h
          have hp := ih k y a h'
          show List.Perm (y :: b :: t.set k a) (a :: b :: t)
          have s1 : List.Perm (y :: b :: t.set k a) (b :: y :: t.set k a) :=
            List.Perm.swap b y _
          have s3 : List.Perm (b :: a :: t) (a :: b :: t) := List.Perm.swap a b t
          exact s1.trans ((hp.cons b).trans s3)

/-! ### The swap sort of `prioritizeURLs` -/

theorem swapIJ_perm : ∀ (l : List URLScore) (i j : Nat),
    List.Perm (swapIJ l i j) l := by
  intro l
  induction l with
  | nil =>
      intro i j
      unfold swapIJ
      cases i <;> exact List.Perm.refl _
  | cons a t ih =>
      intro i j
      cases i with
      | zero =>
          cases j with
          | zero => exact List.Perm.refl _
          | succ k =>
              cases hk : t.get? k with
              | none =>
                  unfold swapIJ
                  rw [show (a :: t).get? (k + 1) = none from hk]
                  all_goals exact List.Perm.refl _
              | some y =>
                  have he : swapIJ (a :: t) 0 (k + 1) = y :: t.set k a := by
                    unfold swapIJ
                    rw [show (a :: t).get? (k + 1) = some y from hk]
                    all_goals rfl
                  rw [he]
                  exact cons_set_perm t k y a hk
      | succ m =>
          cases j with
          | zero =>
              cases hm : t.get? m with
              | none =>
                  unfold swapIJ
                  rw [show (a :: t).get? (m + 1) = none from hm]
                  all_goals exact List.Perm.refl _
              | some x =>
                  have he : swapIJ (a :: t) (m + 1) 0 = x :: t.set m a := by
                    unfold swapIJ
                    rw [show (a :: t).get? (m + 1) = some x from hm]
                    all_goals rfl
                  rw [he]
                  exact cons_set_perm t m x a hm
          | succ k =>
              cases hm : t.get? m with
              | none =>
                  unfold swapIJ
                  rw [show (a :: t).get? (m + 1) = none from hm]
                  all_goals exact List.Perm.refl _
              | some x =>
                  cases hk : t.get? k with
                  | none =>
                      unfold swapIJ
                      rw [show (a :: t).get? (m + 1) = some x from hm,
                          show (a :: t).get? (k + 1) = none from hk]
                      all_goals exact List.Perm.refl _
                  | some y =>
                      have he : swapIJ (a :: t) (m + 1) (k + 1) = a :: swapIJ t m k := by
                        unfold swapIJ
                        rw [show (a :: t).get? (m + 1) = some x from hm,
                            show (a :: t).get? (k + 1) = some y from hk,
                            show t.get? m = some x from hm,
                            show t.get? k = some y from hk]
                        all_goals rfl
                      rw [he]
                      exact (ih m k).cons a

theorem cmpAt_mid (P M Q : List URLScore) (c x : URLScore) (j : Nat)
    (hj : j = P.length + M.length + 1) :
    cmpAt (P ++ c :: (M ++ x :: Q)) P.length j = decide (x.score > c.score) := by
  have h1 : (P ++ c :: (M ++ x :: Q)).get? P.length = some c := get?_append_mid P c _
  have h2 : (P ++ c :: (M ++ x :: Q)).get? j = some x := by
    have he : P ++ c :: (M ++ x :: Q) = (P ++ c :: M) ++ x :: Q := by simp
    have hl : (P ++ c :: M).length = j := by simp [hj]; omega
    rw [he, ← hl]
    exact get?_append_mid _ x Q
  unfold cmpAt
  rw [h2, h1]

theorem swapIJ_mid (P M Q : List URLScore) (c x : URLScore) (j : Nat)
    (hj : j = P.length + M.length + 1) :
    swapIJ (P ++ c :: (M ++ x :: Q)) P.length j = P ++ x :: (M ++ c :: Q) := by
  have h1 : (P ++ c :: (M ++ x :: Q)).get? P.length = some c := get?_append_mid P c _
  have h2 : (P ++ c :: (M ++ x :: Q)).get? j = some x := by
    have he : P ++ c :: (M ++ x :: Q) = (P ++ c :: M) ++ x :: Q := by simp
    have hl : (P ++ c :: M).length = j := by simp [hj]; omega
    rw [he, ← hl]
    exact get?_append_mid _ x Q
  simp only [swapIJ, h1, h2]
  rw [set_append_mid P c x _]
  have he : P ++ x :: (M ++ x :: Q) = (P ++ x :: M) ++ x :: Q := by simp
  have hl : (P ++ x :: M).length = j := by simp [hj]; omega
  rw [he, ← hl, set_append_mid]
  simp

theorem swapInner_decomp :
    ∀ (rest : List URLScore) (fuel : Nat) (P M : List URLScore) (c : URLScore)
      (j : Nat), rest.length ≤ fuel → j = P.length + M.length + 1 →
      swapInner P.length j fuel (P ++ c :: (M ++ rest))
        = P ++ (selInner c rest).1 :: (M ++ (selInner c rest).2) := by
  intro rest
  induction rest with
  | nil =>
      intro fuel P M c j _ hj
      cases fuel with
      | zero => simp [swapInner, selInner]
      | succ f =>
          have hnot : ¬ j < (P ++ c :: (M ++ ([] : List URLScore))).length := by
            simp only [List.length_append, List.length_cons, List.length_nil, hj]
            omega
          rw [swapInner, if_neg hnot]
          simp [selInner]
  | cons x rest ih =>
      intro fuel P M c j hf hj
      cases fuel with
      | zero => simp at hf
      | succ f =>
          have hlt : j < (P ++ c :: (M ++ x :: rest)).length := by
            simp only [List.length_append, List.length_cons, hj]
            omega
          rw [swapInner, if_pos hlt, cmpAt_mid P M rest c x j hj]
          by_cases hc : x.score > c.score
          · rw [if_pos (by simpa using hc), swapIJ_mid P M rest c x j hj]
            have hre : P ++ x :: (M ++ c :: rest) = P ++ x :: ((M ++ [c]) ++ rest) := by
              simp
            rw [hre, ih f P (M ++ [c]) x (j + 1)
              (by simp only [List.length_cons] at hf; omega)
              (by simp only [List.length_append, List.length_singleton, hj]; omega)]
            simp [selInner, hc]
          · rw [if_neg (by simpa using hc)]
            have hre : P ++ c :: (M ++ x :: rest) = P ++ c :: ((M ++ [x]) ++ rest) := by
              simp
            rw [hre, ih f P (M ++ [x]) c (j + 1)
              (by simp only [List.length_cons] at hf; omega)
              (by simp only [List.length_append, List.length_singleton, hj]; omega)]
            simp [selInner, hc]

theorem selInner_length : ∀ (xs : List URLScore) (c : URLScore),
    (selInner c xs).2.length = xs.length := by
  intro xs
  induction xs with
  | nil => intro c; rfl
  | cons x xs ih =>
      intro c
      by_cases h : x.score > c.score <;> simp [selInner, h, ih]

theorem selInner_perm : ∀ (xs : List URLScore) (c : URLScore),
    List.Perm ((selInner c xs).1 :: (selInner c xs).2) (c :: xs) := by
  intro xs
  induction xs with
  | nil => intro c; exact List.Perm.refl _
  | cons x xs ih =>
      intro c
      by_cases h : x.score > c.score
      · simp only [selInner, if_pos h]
        have s1 := List.Perm.swap c (selInner x xs).1 (selInner x xs).2
        exact s1.trans ((ih x).cons c)
      · simp only [selInner, if_neg h]
        have s1 := List.Perm.swap x (selInner c xs).1 (selInner c xs).2
        have s3 := List.Perm.swap c x xs
        exact s1.trans (((ih c).cons x).trans s3)

theorem selInner_max : ∀ (xs : List URLScore) (c : URLScore),
    c.score ≤ (selInner c xs).1.score ∧
    ∀ y ∈ (selInner c xs).2, y.score ≤ (selInner c xs).1.score := by
  intro xs
  induction xs with
  | nil => intro c; exact ⟨le_refl _, by intro y hy; simp [selInner] at hy⟩
  | cons x xs ih =>
      intro c
      by_cases h : x.score > c.score
      · simp only [selInner, if_pos h]
        refine ⟨le_of_lt (lt_of_lt_of_le h (ih x).1), ?_⟩
        intro y hy
        rcases List.mem_cons.mp hy with hy | hy
        · subst hy; exact le_of_lt (lt_of_lt_of_le h (ih x).1)
        · exact (ih x).2 y hy
      · simp only [selInner, if_neg h]
        refine ⟨(ih c).1, ?_⟩
        intro y hy
        rcases List.mem_cons.mp hy with hy | hy
        · subst hy; exact le_trans (not_lt.mp h) (ih c).1
        · exact (ih c).2 y hy

theorem selSortF_perm : ∀ (fuel : Nat) (l : List URLScore), l.length ≤ fuel →
    List.Perm (selSortF fuel l) l := by
  intro fuel
  induction fuel with
  | zero => intro l _; exact List.Perm.refl _
  | succ f ih =>
      intro l h
      match l with
      | [] => exact List.Perm.refl _
      | [x] => exact List.Perm.refl _
      | x :: y :: xs =>
          show List.Perm ((selInner x (y :: xs)).1 ::
            selSortF f (selInner x (y :: xs)).2) (x :: y :: xs)
          have hl : (selInner x (y :: xs)).2.length ≤ f := by
            rw [selInner_length]
            simp only [List.length_cons] at h ⊢
            omega
          exact ((ih _ hl).cons _).trans (selInner_perm (y :: xs) x)

theorem selSortF_pairwise : ∀ (fuel : Nat) (l : List URLScore), l.length ≤ fuel →
    List.Pairwise (fun a b => b.score ≤ a.score) (selSortF fuel l) := by
  intro fuel
  induction fuel with
  | zero =>
      intro l h
      have : l = [] := List.length_eq_zero.mp (Nat.le_zero.mp h)
      subst this
      exact List.Pairwise.nil
  | succ f ih =>
      intro l h
      match l with
      | [] => exact List.Pairwise.nil
      | [x] => simp [selSortF]
      | x :: y :: xs =>
          show List.Pairwise _ ((selInner x (y :: xs)).1 ::
            selSortF f (selInner x (y :: xs)).2)
          have hl : (selInner x (y :: xs)).2.length ≤ f := by
            rw [selInner_length]
            simp only [List.length_cons] at h ⊢
            omega
          refine List.pairwise_cons.mpr ⟨?_, ih _ hl⟩
          intro b hb
          have hbmem : b ∈ (selInner x (y :: xs)).2 :=
            ((selSortF_perm f _ hl).mem_iff).mp hb
          exact (selInner_max (y :: xs) x).2 b hbmem

theorem swapOuter_decomp : ∀ (fuel : Nat) (rest P : List URLScore),
    rest.length ≤ fuel + 1 →
    swapOuter P.length fuel (P ++ rest) = P ++ selSortF fuel rest := by
  intro fuel
  induction fuel with
  | zero => intro rest P _; rfl
  | succ f ih =>
      intro rest P h
      match rest with
      | [] =>
          have hcon : ¬ P.length + 1 < (P ++ ([] : List URLScore)).length := by
            simp
          rw [swapOuter, if_neg hcon]
          rfl
      | [x] =>
          have hcon : ¬ P.length + 1 < (P ++ [x]).length := by simp
          rw [swapOuter, if_neg hcon]
          rfl
      | x :: y :: xs =>
          have hcon : P.length + 1 < (P ++ x :: y :: xs).length := by
            simp only [List.length_append, List.length_cons]
            omega
          rw [swapOuter, if_pos hcon]
          have hshape : P ++ x :: y :: xs = P ++ x :: (([] : List URLScore) ++ y :: xs) := by
            simp
          rw [hshape]
          rw [swapInner_decomp (y :: xs) ((P ++ x :: (([] : List URLScore) ++ y :: xs)).length)
            P [] x (P.length + 1)
            (by simp only [List.length_append, List.length_cons, List.nil_append]; omega)
            (by simp)]
          have hys : (selInner x (y :: xs)).2.length ≤ f + 1 := by
            rw [selInner_length]
            simp only [List.length_cons] at h ⊢
            omega
          have hP2 : P.length + 1 = (P ++ [(selInner x (y :: xs)).1]).length := by simp
          have hassoc : P ++ (selInner x (y :: xs)).1 ::
              (([] : List URLScore) ++ (selInner x (y :: xs)).2)
              = (P ++ [(selInner x (y :: xs)).1]) ++ (selInner x (y :: xs)).2 := by
            simp
          rw [hassoc, hP2, ih _ _ hys]
          simp [selSortF]

theorem map_mk_url : ∀ l : List String,
    (l.map (fun u => URLScore.mk u (scoreURL u))).map URLScore.url = l := by
  intro l
  induction l with
  | nil => rfl
  | cons u t ih => simp [ih]

theorem prioritizeURLs_perm_sorted (urls : List String) :
    List.Perm (prioritizeURLs urls) urls ∧
    List.Pairwise (fun a b => scoreURL b ≤ scoreURL a) (prioritizeURLs urls) := by
  unfold prioritizeURLs
  by_cases h : urls.length ≤ 1
  · rw [if_pos h]
    refine ⟨List.Perm.refl _, ?_⟩
    match urls with
    | [] => exact List.Pairwise.nil
    | [u] => simp
    | u :: v :: t => simp at h
  · rw [if_neg h]
    dsimp only
    have hbridge := swapOuter_decomp
      ((urls.map (fun u => URLScore.mk u (scoreURL u))).length)
      (urls.map (fun u => URLScore.mk u (scoreURL u))) [] (Nat.le_succ _)
    simp only [List.nil_append, List.length_nil] at hbridge
    rw [hbridge]
    have hperm := selSortF_perm ((urls.map (fun u => URLScore.mk u (scoreURL u))).length)
      (urls.map (fun u => URLScore.mk u (scoreURL u))) (le_refl _)
    constructor
    · have := hperm.map URLScore.url
      rw [map_mk_url] at this
      exact this
    · have hpw := selSortF_pairwise ((urls.map (fun u => URLScore.mk u (scoreURL u))).length)
        (urls.map (fun u => URLScore.mk u (scoreURL u))) (le_refl _)
      rw [List.pairwise_map]
      refine hpw.imp_of_mem ?_
      intro a b ha hb hab
      have hsc : ∀ e ∈ selSortF ((urls.map (fun u => URLScore.mk u (scoreURL u))).length)
          (urls.map (fun u => URLScore.mk u (scoreURL u))), e.score = scoreURL e.url := by
        intro e he
        have : e ∈ urls.map (fun u => URLScore.mk u (scoreURL u)) := hperm.mem_iff.mp he
        rcases List.mem_map.mp this with ⟨u, _, rfl⟩
        rfl
      rw [← hsc a ha, ← hsc b hb]
      exact hab

/-! ### The domain filter -/

theorem filterLoop_eq_filter (d : String) (v : List String) :
    ∀ urls, filterLoop d v urls
      = urls.filter (fun u => !(v.contains u) && decide (hostOf u = some d)) := by
  intro urls
  induction urls with
  | nil => rfl
  | cons u rest ih =>
      by_cases hv : u ∈ v
      · simp [filterLoop, hv, List.filter_cons, ih]
      · cases hh : hostOf u with
        | none => simp [filterLoop, hv, hh, List.filter_cons, ih]
        | some dd =>
            by_cases hd : dd = d
            · subst hd
              simp [filterLoop, hv, hh, List.filter_cons, ih]
            · simp [filterLoop, hv, hh, hd, List.filter_cons, ih]

/-! ### The retry loop -/

theorem retryLoop_spec : ∀ (rem a : Nat) (outcome : Nat → Bool), 1 ≤ a →
    (retryLoop outcome (fun _ => false) a rem).attempts ≤ rem ∧
    (retryLoop outcome (fun _ => false) a rem).waits
      = (List.range (retryLoop outcome (fun _ => false) a rem).attempts).map
          (fun k => (a + k) * (a + k)) := by
  intro rem
  induction rem with
  | zero => intro a outcome _; exact ⟨le_refl 0, by simp [retryLoop]⟩
  | succ rem ih =>
      intro a outcome ha
      have hne : (a == 0) = false := by simp; omega
      by_cases ho : outcome a
      · refine ⟨?_, ?_⟩
        · simp [retryLoop, hne, ho]
        · simp [retryLoop, hne, ho, List.range_succ]
      · have h := ih (a + 1) outcome (by omega)
        refine ⟨?_, ?_⟩
        · simp only [retryLoop, hne, ho]
          simp only [Bool.false_eq_true, if_false]
          omega
        · simp only [retryLoop, hne, ho]
          simp only [Bool.false_eq_true, if_false]
          rw [h.2, List.range_succ_eq_map, List.map_cons, List.map_map]
          have hfun : ((fun k => (a + k) * (a + k)) ∘ Nat.succ)
              = fun k => ((a + 1) + k) * ((a + 1) + k) := by
            funext k
            have : a + Nat.succ k = (a + 1) + k := by omega
            simp [Function.comp, this]
          rw [hfun]
          simp

theorem startRetry_spec (outcome : Nat → Bool) (m : Nat) :
    (StartCrawlWithRetry outcome (fun _ => false) m).attempts ≤ m + 1 ∧
    (StartCrawlWithRetry outcome (fun _ => false) m).waits
      = (List.range ((StartCrawlWithRetry outcome (fun _ => false) m).attempts - 1)).map
          (fun k => (k + 1) * (k + 1)) := by
  unfold StartCrawlWithRetry
  by_cases ho : outcome 0
  · refine ⟨?_, ?_⟩
    · simp [retryLoop, ho]
    · simp [retryLoop, ho]
  · have h := retryLoop_spec m 1 outcome (le_refl 1)
    refine ⟨?_, ?_⟩
    · simp only [retryLoop, beq_self_eq_true, if_true, ho]
      simp only [Bool.false_eq_true, if_false]
      omega
    · simp only [retryLoop, beq_self_eq_true, if_true, ho]
      simp only [Bool.false_eq_true, if_false]
      rw [h.2]
      have hfun : (fun k => (1 + k) * (1 + k)) = fun k : Nat => (k + 1) * (k + 1) := by
        funext k
        rw [Nat.add_comm]
      rw [hfun]
      simp

/-! ### Orchestrator invariants -/

theorem batchOf_length_le (p : CrawlParams) (s : CrawlState) :
    (batchOf p s).length ≤ bstpOf p s := by
  calc (batchOf p s).length ≤ (s.frontier.take (bstpOf p s)).length :=
        List.length_filter_le _ _
    _ ≤ bstpOf p s := by rw [List.length_take]; exact min_le_left _ _

theorem bstpOf_le (p : CrawlParams) (s : CrawlState) :
    bstpOf p s ≤ p.maxURLs - s.results.length := by
  unfold bstpOf
  exact le_trans (min_le_right _ _) (min_le_right _ _)

theorem crawlStep_results_le {p : CrawlParams} {s s1 : CrawlState}
    (h : crawlStep p s = some s1) (hle : s.results.length ≤ p.maxURLs) :
    s1.results.length ≤ p.maxURLs := by
  unfold crawlStep at h
  by_cases h1 : s.frontier.isEmpty
  · rw [if_pos h1] at h; exact Option.noConfusion h
  rw [if_neg h1] at h
  by_cases h2 : p.maxURLs ≤ s.results.length
  · rw [if_pos h2] at h; exact Option.noConfusion h
  rw [if_neg h2] at h
  by_cases h3 : bstpOf p s = 0
  · rw [if_pos h3] at h; exact Option.noConfusion h
  rw [if_neg h3] at h
  by_cases h4 : (batchOf p s).isEmpty
  · rw [if_pos h4] at h
    have hs := Option.some.inj h
    subst hs
    exact hle
  rw [if_neg h4] at h
  cases hr : s.responses with
  | nil =>
      rw [hr] at h
      dsimp only at h
      have hs := Option.some.inj h
      subst hs
      exact hle
  | cons r rest =>
      cases r with
      | none =>
          rw [hr] at h
          dsimp only at h
          have hs := Option.some.inj h
          subst hs
          exact hle
      | some rs =>
          rw [hr] at h
          dsimp only at h
          have hs := Option.some.inj h
          subst hs
          have hb := batchOf_length_le p s
          have hm := bstpOf_le p s
          have htake : (rs.take (batchOf p s).length).length ≤ (batchOf p s).length := by
            rw [List.length_take]; exact min_le_left _ _
          simp only [List.length_append]
          omega

theorem crawlStep_enqueued_char {p : CrawlParams} {s s1 : CrawlState}
    (h : crawlStep p s = some s1) :
    s1.enqueued = s.enqueued ∨
    ∃ rs, s1.enqueued = s.enqueued ++ extendItems p.startURL p.maxDepth p.maxURLs
      (visitedAfter p s) (batchOf p s) rs := by
  unfold crawlStep at h
  by_cases h1 : s.frontier.isEmpty
  · rw [if_pos h1] at h; exact Option.noConfusion h
  rw [if_neg h1] at h
  by_cases h2 : p.maxURLs ≤ s.results.length
  · rw [if_pos h2] at h; exact Option.noConfusion h
  rw [if_neg h2] at h
  by_cases h3 : bstpOf p s = 0
  · rw [if_pos h3] at h; exact Option.noConfusion h
  rw [if_neg h3] at h
  by_cases h4 : (batchOf p s).isEmpty
  · rw [if_pos h4] at h
    have hs := Option.some.inj h
    subst hs
    exact Or.inl rfl
  rw [if_neg h4] at h
  cases hr : s.responses with
  | nil =>
      rw [hr] at h
      dsimp only at h
      have hs := Option.some.inj h
      subst hs
      exact Or.inl rfl
  | cons r rest =>
      cases r with
      | none =>
          rw [hr] at h
          dsimp only at h
          have hs := Option.some.inj h
          subst hs
          exact Or.inl rfl
      | some rs =>
          rw [hr] at h
          dsimp only at h
          have hs := Option.some.inj h
          subst hs
          exact Or.inr ⟨rs.take (batchOf p s).length, rfl⟩

theorem crawlStep_all_none {p : CrawlParams} {s s1 : CrawlState}
    (h : crawlStep p s = some s1) (hn : ∀ r ∈ s.responses, r = none) :
    s1.results = s.results ∧ ∀ r ∈ s1.responses, r = none := by
  unfold crawlStep at h
  by_cases h1 : s.frontier.isEmpty
  · rw [if_pos h1] at h; exact Option.noConfusion h
  rw [if_neg h1] at h
  by_cases h2 : p.maxURLs ≤ s.results.length
  · rw [if_pos h2] at h; exact Option.noConfusion h
  rw [if_neg h2] at h
  by_cases h3 : bstpOf p s = 0
  · rw [if_pos h3] at h; exact Option.noConfusion h
  rw [if_neg h3] at h
  by_cases h4 : (batchOf p s).isEmpty
  · rw [if_pos h4] at h
    have hs := Option.some.inj h
    subst hs
    exact ⟨rfl, hn⟩
  rw [if_neg h4] at h
  cases hr : s.responses with
  | nil =>
      rw [hr] at h
      dsimp only at h
      have hs := Option.some.inj h
      subst hs
      exact ⟨rfl, by intro r hrr; simp at hrr⟩
  | cons r rest =>
      cases r with
      | none =>
          rw [hr] at h
          dsimp only at h
          have hs := Option.some.inj h
          subst hs
          refine ⟨rfl, ?_⟩
          intro r hrr
          exact hn r (by rw [hr]; exact List.mem_cons_of_mem _ hrr)
      | some rs =>
          exfalso
          have := hn (some rs) (by rw [hr]; exact List.mem_cons_self _ _)
          exact Option.noConfusion this

theorem extendItems_depth_le (su : String) (md mu : Nat) (v : List String) :
    ∀ (es : List URLWithDepth) (rs : List PageResult) (e : URLWithDepth),
      e ∈ extendItems su md mu v es rs → e.depth ≤ md := by
  intro es
  induction es with
  | nil =>
      intro rs e he
      cases rs <;> simp [extendItems] at he
  | cons b es ih =>
      intro rs e he
      cases rs with
      | nil => simp [extendItems] at he
      | cons r rs2 =>
          simp only [extendItems, List.mem_append] at he
          rcases he with he | he
          · by_cases hd : b.depth < md
            · rw [if_pos hd] at he
              by_cases hv : v.length < mu
              · rw [if_pos hv] at he
                rcases List.mem_map.mp he with ⟨u, _, rfl⟩
                simpa using hd
              · rw [if_neg hv] at he; simp at he
            · rw [if_neg hd] at he; simp at he
          · exact ih rs2 e he

theorem crawlLoop_results_le (p : CrawlParams) (c : Nat → Bool) :
    ∀ (fuel : Nat) (s : CrawlState), s.results.length ≤ p.maxURLs →
      (crawlLoop p c fuel s).results.length ≤ p.maxURLs := by
  intro fuel
  induction fuel with
  | zero => intro s hs; exact hs
  | succ f ih =>
      intro s hs
      rw [crawlLoop]
      cases hstep : crawlStep p s with
      | none => exact hs
      | some s1 => exact ih s1 (crawlStep_results_le hstep hs)

theorem crawlLoop_enqueued_inv (p : CrawlParams) (c : Nat → Bool) :
    ∀ (fuel : Nat) (s : CrawlState) (a : URLWithDepth),
      s.enqueued.head? = some a →
      (∀ e ∈ s.enqueued, e.depth ≤ p.maxDepth) →
      (crawlLoop p c fuel s).enqueued.head? = some a ∧
      ∀ e ∈ (crawlLoop p c fuel s).enqueued, e.depth ≤ p.maxDepth := by
  intro fuel
  induction fuel with
  | zero => intro s a hh hd; exact ⟨hh, hd⟩
  | succ f ih =>
      intro s a hh hd
      rw [crawlLoop]
      cases hstep : crawlStep p s with
      | none => exact ⟨hh, hd⟩
      | some s1 =>
          rcases crawlStep_enqueued_char hstep with he | ⟨rs, he⟩
          · exact ih s1 a (he ▸ hh) (he ▸ hd)
          · refine ih s1 a ?_ ?_
            · rw [he]; exact head?_append_some _ _ a hh
            · rw [he]
              intro e hmem
              rcases List.mem_append.mp hmem with hmem | hmem
              · exact hd e hmem
              · exact extendItems_depth_le _ _ _ _ _ _ e hmem

theorem crawlLoop_all_none (p : CrawlParams) (c : Nat → Bool) :
    ∀ (fuel : Nat) (s : CrawlState), (∀ r ∈ s.responses, r = none) →
      (crawlLoop p c fuel s).results = s.results := by
  intro fuel
  induction fuel with
  | zero => intro s _; rfl
  | succ f ih =>
      intro s hn
      rw [crawlLoop]
      cases hstep : crawlStep p s with
      | none => rfl
      | some s1 =>
          have hc := crawlStep_all_none hstep hn
          rw [ih s1 hc.2, hc.1]

/-! ### The per-URL success flag plays no role in the control flow -/

theorem setSuccess_html (r : PageResult) : (setSuccess r).html = r.html := rfl

theorem bstpOf_stateMap (p : CrawlParams) (s : CrawlState) :
    bstpOf p (stateMap s) = bstpOf p s := by
  unfold bstpOf stateMap
  rw [List.length_map]

theorem batchOf_stateMap (p : CrawlParams) (s : CrawlState) :
    batchOf p (stateMap s) = batchOf p s := by
  unfold batchOf
  rw [bstpOf_stateMap]
  rfl

theorem visitedAfter_stateMap (p : CrawlParams) (s : CrawlState) :
    visitedAfter p (stateMap s) = visitedAfter p s := by
  unfold visitedAfter
  rw [batchOf_stateMap]
  rfl

theorem extendItems_map_setSuccess (su : String) (md mu : Nat) (v : List String) :
    ∀ (es : List URLWithDepth) (rs : List PageResult),
      extendItems su md mu v es (rs.map setSuccess) = extendItems su md mu v es rs := by
  intro es
  induction es with
  | nil => intro rs; cases rs <;> rfl
  | cons b es ih =>
      intro rs
      cases rs with
      | nil => rfl
      | cons r rs2 =>
          simp only [List.map_cons, extendItems]
          rw [ih rs2]
          rfl

theorem take_map_setSuccess (n : Nat) (rs : List PageResult) :
    (rs.map setSuccess).take n = (rs.take n).map setSuccess := by
  rw [List.map_take]

theorem extendItems_take_map (su : String) (md mu : Nat) (v : List String)
    (es : List URLWithDepth) (n : Nat) (rs : List PageResult) :
    extendItems su md mu v es (List.take n (List.map setSuccess rs))
      = extendItems su md mu v es (List.take n rs) := by
  rw [← List.map_take, extendItems_map_setSuccess]

theorem crawlStep_stateMap (p : CrawlParams) (s : CrawlState) :
    crawlStep p (stateMap s) = Option.map stateMap (crawlStep p s) := by
  obtain ⟨fr, vis, res, resp, bat, enq⟩ := s
  cases resp with
  | nil =>
      simp only [stateMap, respsMap, List.map_nil, crawlStep, bstpOf, batchOf,
        visitedAfter, List.length_map]
      split_ifs <;>
        simp [stateMap, List.map_append, List.map_take, extendItems_map_setSuccess,
          respsMap]
  | cons r rest =>
      cases r with
      | none =>
          simp only [stateMap, respsMap, List.map_cons, Option.map_none', crawlStep,
            bstpOf, batchOf, visitedAfter, List.length_map]
          split_ifs <;>
            simp [stateMap, List.map_append, List.map_take, extendItems_map_setSuccess,
              extendItems_take_map, respsMap]
      | some rs =>
          simp only [stateMap, respsMap, List.map_cons, Option.map_some', crawlStep,
            bstpOf, batchOf, visitedAfter, List.length_map]
          split_ifs <;>
            simp [stateMap, List.map_append, List.map_take, extendItems_map_setSuccess,
              extendItems_take_map, respsMap]

theorem crawlLoop_stateMap (p : CrawlParams) (c : Nat → Bool) :
    ∀ (fuel : Nat) (s : CrawlState),
      crawlLoop p c fuel (stateMap s) = stateMap (crawlLoop p c fuel s) := by
  intro fuel
  induction fuel with
  | zero => intro s; rfl
  | succ f ih =>
      intro s
      rw [crawlLoop, crawlLoop, crawlStep_stateMap]
      cases hstep : crawlStep p s with
      | none => rfl
      | some s1 => exact ih s1

/-! ### Link extraction lemmas -/

theorem extractLoop_eq_dedup (base : String) :
    ∀ (caps seen : List String),
      extractLoop base caps seen = dedupGo seen (candidateStream caps base) := by
  intro caps
  induction caps with
  | nil => intro seen; rfl
  | cons cap rest ih =>
      intro seen
      by_cases hskip : skipCandidate (trimSpace cap)
      · simp only [extractLoop, candidateStream, List.filterMap_cons, hskip, if_true]
        exact ih seen
      · cases habs : makeAbsoluteURL (trimSpace cap) base with
        | none =>
            simp only [extractLoop, candidateStream, List.filterMap_cons, hskip,
              Bool.false_eq_true, if_false, habs]
            exact ih seen
        | some a =>
            simp only [extractLoop, candidateStream, List.filterMap_cons, hskip,
              Bool.false_eq_true, if_false, habs, dedupGo]
            by_cases hseen : seen.contains a
            · simp only [hseen, if_true]
              exact ih seen
            · simp only [hseen, Bool.false_eq_true, if_false]
              exact congrArg (List.cons a) (ih (a :: seen))

theorem dedupGo_nodup_notin : ∀ (l seen : List String),
    (dedupGo seen l).Nodup ∧ ∀ u ∈ dedupGo seen l, u ∉ seen := by
  intro l
  induction l with
  | nil => intro seen; exact ⟨List.nodup_nil, by intro u hu; simp [dedupGo] at hu⟩
  | cons x xs ih =>
      intro seen
      by_cases hx : seen.contains x
      · simp only [dedupGo, hx, if_true]
        exact ih seen
      · simp only [dedupGo, hx, Bool.false_eq_true, if_false]
        obtain ⟨ihn, ihm⟩ := ih (x :: seen)
        constructor
        · refine List.nodup_cons.mpr ⟨?_, ihn⟩
          intro hmem
          have := ihm x hmem
          simp at this
        · intro u hu
          rcases List.mem_cons.mp hu with hu | hu
          · subst hu
            intro hmem
            simp at hx
            exact hx hmem
          · intro hmem
            have := ihm u hu
            simp at this
            exact this.2 hmem

theorem dedupGo_subset : ∀ (l seen : List String) (u : String),
    u ∈ dedupGo seen l → u ∈ l := by
  intro l
  induction l with
  | nil => intro seen u hu; simp [dedupGo] at hu
  | cons x xs ih =>
      intro seen u hu
      by_cases hx : seen.contains x
      · simp only [dedupGo, hx, if_true] at hu
        exact List.mem_cons_of_mem _ (ih seen u hu)
      · simp only [dedupGo, hx, Bool.false_eq_true, if_false] at hu
        rcases List.mem_cons.mp hu with hu | hu
        · subst hu; exact List.mem_cons_self _ _
        · exact List.mem_cons_of_mem _ (ih (x :: seen) u hu)

theorem schemeSplit_of_abs (base : String) (hb : isHttpAbs base = true) :
    ∃ rest, schemeSplit base.data = some ("http://".data, rest) ∨
      schemeSplit base.data = some ("https://".data, rest) := by
  unfold isHttpAbs strStartsWith at hb
  unfold schemeSplit
  by_cases h1 : listStartsWith base.data ("http://".data)
  · exact ⟨base.data.drop 7, Or.inl (by rw [if_pos h1])⟩
  · have h2 : listStartsWith base.data ("https://".data) = true := by
      rcases Bool.or_eq_true_iff.mp hb with h | h
      · exact absurd h h1
      · exact h
    exact ⟨base.data.drop 8, Or.inr (by rw [if_neg h1, if_pos h2])⟩

theorem isHttpAbs_mk_append (sch t : List Char)
    (hs : sch = "http://".data ∨ sch = "https://".data) :
    isHttpAbs ⟨sch ++ t⟩ = true := by
  rcases hs with hs | hs <;> subst hs
  · have h1 : strStartsWith ⟨"http://".data ++ t⟩ "http://" = true := by
      unfold strStartsWith
      exact listStartsWith_append_self _ _
    unfold isHttpAbs
    rw [h1, Bool.true_or]
  · have h2 : strStartsWith ⟨"https://".data ++ t⟩ "https://" = true := by
      unfold strStartsWith
      exact listStartsWith_append_self _ _
    unfold isHttpAbs
    rw [h2, Bool.or_true]

theorem resolveRef_abs (base rel u : String) (hb : isHttpAbs base = true)
    (h : resolveRef base rel = some u) : isHttpAbs u = true := by
  unfold resolveRef at h
  by_cases hc : (hasCtl rel || hasCtl base) = true
  · rw [if_pos hc] at h; exact Option.noConfusion h
  rw [if_neg hc] at h
  rcases schemeSplit_of_abs base hb with ⟨rest, hs | hs⟩ <;> rw [hs] at h <;>
    dsimp only at h
  · by_cases hsp : (rest.takeWhile hostChar).contains ' '
    · rw [if_pos hsp] at h; exact Option.noConfusion h
    · rw [if_neg hsp] at h
      by_cases hsl : listStartsWith rel.data ['/']
      · rw [if_pos hsl] at h
        have hu := Option.some.inj h
        subst hu
        rw [show "http://".data ++ rest.takeWhile hostChar ++ rel.data
            = "http://".data ++ (rest.takeWhile hostChar ++ rel.data) from by
          simp [List.append_assoc]]
        exact isHttpAbs_mk_append _ _ (Or.inl rfl)
      · rw [if_neg hsl] at h
        have hu := Option.some.inj h
        subst hu
        rw [show "http://".data ++ rest.takeWhile hostChar
              ++ dirOf (rest.drop (rest.takeWhile hostChar).length) ++ rel.data
            = "http://".data ++ (rest.takeWhile hostChar
              ++ (dirOf (rest.drop (rest.takeWhile hostChar).length) ++ rel.data))
            from by simp [List.append_assoc]]
        exact isHttpAbs_mk_append _ _ (Or.inl rfl)
  · by_cases hsp : (rest.takeWhile hostChar).contains ' '
    · rw [if_pos hsp] at h; exact Option.noConfusion h
    · rw [if_neg hsp] at h
      by_cases hsl : listStartsWith rel.data ['/']
      · rw [if_pos hsl] at h
        have hu := Option.some.inj h
        subst hu
        rw [show "https://".data ++ rest.takeWhile hostChar ++ rel.data
            = "https://".data ++ (rest.takeWhile hostChar ++ rel.data) from by
          simp [List.append_assoc]]
        exact isHttpAbs_mk_append _ _ (Or.inr rfl)
      · rw [if_neg hsl] at h
        have hu := Option.some.inj h
        subst hu
        rw [show "https://".data ++ rest.takeWhile hostChar
              ++ dirOf (rest.drop (rest.takeWhile hostChar).length) ++ rel.data
            = "https://".data ++ (rest.takeWhile hostChar
              ++ (dirOf (rest.drop (rest.takeWhile hostChar).length) ++ rel.data))
            from by simp [List.append_assoc]]
        exact isHttpAbs_mk_append _ _ (Or.inr rfl)

theorem makeAbsoluteURL_abs (v base u : String) (hb : isHttpAbs base = true)
    (h : makeAbsoluteURL v base = some u) : isHttpAbs u = true := by
  unfold makeAbsoluteURL at h
  by_cases hv : (strStartsWith v "http://" || strStartsWith v "https://") = true
  · rw [if_pos hv] at h
    have hu := Option.some.inj h
    subst hu
    exact hv
  · rw [if_neg hv] at h
    exact resolveRef_abs base v u hb h

theorem candidateStream_abs (base : String) (hb : isHttpAbs base = true) :
    ∀ (caps : List String) (u : String), u ∈ candidateStream caps base →
      isHttpAbs u = true := by
  intro caps u hu
  rcases List.mem_filterMap.mp hu with ⟨cap, _, hcap⟩
  by_cases hskip : skipCandidate (trimSpace cap)
  · rw [if_pos hskip] at hcap; exact Option.noConfusion hcap
  · rw [if_neg hskip] at hcap
    exact makeAbsoluteURL_abs (trimSpace cap) base u hb hcap

/-! ### The claims -/

/-- C1: the claim states that a URL is dispatched at most once and never
appears twice in the aggregated results, even when it sits more than once in
the frontier at batch-selection time.  The code marks URLs visited only after
the whole selection window has been scanned (crawler.go:395-405 filter first,
crawler.go:422-426 mark later), so in `dupRun` the URL `http://h/x`, present
twice in one window, is dispatched twice inside one batch and appears twice in
the results. -/
theorem claim1_duplicate_dispatch :
    (dupRun.results.map PageResult.url).count "http://h/x" = 2 ∧
    dupRun.batches = [["http://h/"], ["http://h/a", "http://h/b"],
      ["http://h/x", "http://h/x"]] := by
  decide

/-- C2 (counterexample): with `maxURLs = 2` and one failing dispatch,
`overCapRun` marks three URLs visited, so `|visited| ≤ maxURLs` fails. -/
theorem claim2_visited_exceeds_cap :
    overCapRun.visited = ["http://h/", "http://h/a", "http://h/b"] ∧
    2 < overCapRun.visited.length := by
  decide

/-- C2 (amended): for every run, the number of aggregated results never
exceeds `maxURLs`; the visited set carries no such bound when dispatches
fail. -/
theorem claim2_results_bounded (p : CrawlParams) (c : Nat → Bool)
    (responses : List (Option (List PageResult))) (fuel : Nat) :
    (StartBatchRecursiveCrawling p c responses fuel).results.length ≤ p.maxURLs :=
  crawlLoop_results_le p c fuel
    ⟨[⟨p.startURL, 0⟩], [], [], responses, [], [⟨p.startURL, 0⟩]⟩ (Nat.zero_le _)

/-- C3: the claim states that a cancellation observed at the top of a loop
iteration stops any further batch dispatch.  The `break` of crawler.go:382
leaves the `select`, not the `for` loop, so `cancelledRun` — cancelled before
its first iteration — still dispatches the seed batch; the aggregated-so-far
results are returned cleanly. -/
theorem claim3_cancellation_ineffective :
    cancelledRun.batches = [["http://h/"]] ∧
    cancelledRun.results = [] ∧
    cancelledRun.success = false := by
  decide

/-- C4 (counterexample): the orchestrator passes `maxRetries = 1`
(crawler.go:429), so a batch whose attempts all fail gets 2 total attempts,
not the claimed ceiling of 3. -/
theorem claim4_two_attempts_not_three :
    (StartCrawlWithRetry (fun _ => false) (fun _ => false)
      orchestratorBatchMaxRetries).attempts = 2 ∧
    (StartCrawlWithRetry (fun _ => false) (fun _ => false)
      orchestratorBatchMaxRetries).attempts ≠ 3 := by
  decide

/-- C4 (amended): `StartCrawlWithRetry` makes up to `maxRetries + 1` total
attempts, and the wait before the k-th retry is `k²` seconds; the orchestrator
passes `maxRetries = 1`, so its batches get at most 2 attempts; with
`maxRetries = 2` the waits are 1 then 4. -/
theorem claim4_retry_attempts_backoff (outcome : Nat → Bool) (maxRetries : Nat) :
    (StartCrawlWithRetry outcome (fun _ => false) maxRetries).attempts
      ≤ maxRetries + 1 ∧
    (StartCrawlWithRetry outcome (fun _ => false) maxRetries).waits
      = (List.range ((StartCrawlWithRetry outcome (fun _ => false)
          maxRetries).attempts - 1)).map (fun k => (k + 1) * (k + 1)) ∧
    (StartCrawlWithRetry outcome (fun _ => false)
      orchestratorBatchMaxRetries).attempts ≤ 2 ∧
    (StartCrawlWithRetry (fun _ => false) (fun _ => false) 2).waits = [1, 4] := by
  refine ⟨(startRetry_spec outcome maxRetries).1,
    (startRetry_spec outcome maxRetries).2, ?_, by decide⟩
  exact (startRetry_spec outcome 1).1

/-- C5 (counterexample): a malformed seed is not fatal — the filter returns
its candidates unchanged and the run completes, dispatching a URL on a
different host. -/
theorem claim5_malformed_seed_not_fatal :
    hostOf "http:// /" = none ∧
    filterURLsForRecursive ["http://e/x"] "http:// /" ["http://e/x"]
      = ["http://e/x"] ∧
    badSeedRun.batches = [["http:// /"], ["http://e/x"]] ∧
    badSeedRun.success = true := by
  decide

/-- C5 (amended): a malformed seed URL makes `filterURLsForRecursive` return
the candidate list unchanged, bypassing the domain and visited filters; with a
parseable seed, a malformed candidate is skipped and the remaining candidates
are kept exactly when unvisited and of the seed's host, then prioritized. -/
theorem claim5_filter_behavior (urls : List String) (seed : String)
    (visited : List String) :
    (hostOf seed = none → filterURLsForRecursive urls seed visited = urls) ∧
    (∀ d, hostOf seed = some d → filterURLsForRecursive urls seed visited
      = prioritizeURLs (urls.filter
          (fun u => !(visited.contains u) && decide (hostOf u = some d)))) := by
  constructor
  · intro h
    unfold filterURLsForRecursive
    rw [h]
  · intro d h
    unfold filterURLsForRecursive
    rw [h]
    show prioritizeURLs (filterLoop d visited urls) = _
    rw [filterLoop_eq_filter]

theorem claim5_filter_behavior_witness :
    filterURLsForRecursive ["http://e/x"] "http:// /" [] = ["http://e/x"] ∧
    filterURLsForRecursive ["http://h/a", "http://e/b"] "http://h/" []
      = prioritizeURLs ((["http://h/a", "http://e/b"] : List String).filter
          (fun u => !(([] : List String).contains u)
            && decide (hostOf u = some "h"))) :=
  ⟨(claim5_filter_behavior ["http://e/x"] "http:// /" []).1 (by decide),
   (claim5_filter_behavior ["http://h/a", "http://e/b"] "http://h/" []).2 "h"
     (by decide)⟩

/-- C6 (counterexample): the swap sort of `prioritizeURLs` is not stable —
`p1` and `p2` score equally (2) and appear in that order, yet the output puts
`p2` first. -/
theorem claim6_swap_sort_unstable :
    scoreURL "http://h/p1" = scoreURL "http://h/p2" ∧
    prioritizeURLs ["http://h/p1", "http://h/q1/", "http://h/p2", "http://h/q2/"]
      = ["http://h/q1/", "http://h/q2/", "http://h/p2", "http://h/p1"] := by
  decide

/-- C6 (amended): `prioritizeURLs` returns a permutation of its input ordered
by non-increasing score under the stated rule, but equal scores need not keep
their original relative order. -/
theorem claim6_perm_sorted (urls : List String) :
    List.Perm (prioritizeURLs urls) urls ∧
    List.Pairwise (fun a b => scoreURL b ≤ scoreURL a) (prioritizeURLs urls) :=
  prioritizeURLs_perm_sorted urls

/-- C7 (counterexample): in `failedFlagRun` the seed's per-URL result is
marked unsuccessful yet its link is extracted, enqueued and dispatched — the
per-URL success flag is never consulted. -/
theorem claim7_failed_result_links_dispatched :
    failedFlagRun.results.map PageResult.success = [false, true] ∧
    failedFlagRun.batches = [["http://h/"], ["http://h/a"]] := by
  decide

/-- C7 (amended): per-URL unsuccessful results are recorded in the aggregate
like any other, and the orchestrator's control flow never reads the per-URL
success flag: forcing every flag to true leaves the dispatched batches, the
enqueued entries and the visited set unchanged, and maps the results
pointwise. -/
theorem claim7_success_flag_ignored (p : CrawlParams) (c : Nat → Bool)
    (responses : List (Option (List PageResult))) (fuel : Nat) :
    (StartBatchRecursiveCrawling p c (respsMap responses) fuel).batches
      = (StartBatchRecursiveCrawling p c responses fuel).batches ∧
    (StartBatchRecursiveCrawling p c (respsMap responses) fuel).enqueued
      = (StartBatchRecursiveCrawling p c responses fuel).enqueued ∧
    (StartBatchRecursiveCrawling p c (respsMap responses) fuel).visited
      = (StartBatchRecursiveCrawling p c responses fuel).visited ∧
    (StartBatchRecursiveCrawling p c (respsMap responses) fuel).results
      = (StartBatchRecursiveCrawling p c responses fuel).results.map setSuccess := by
  have h2 : stateMap ⟨[⟨p.startURL, 0⟩], [], [], responses, [], [⟨p.startURL, 0⟩]⟩
      = ⟨[⟨p.startURL, 0⟩], [], [], respsMap responses, [], [⟨p.startURL, 0⟩]⟩ := rfl
  have hkey : crawlLoop p c fuel
        ⟨[⟨p.startURL, 0⟩], [], [], respsMap responses, [], [⟨p.startURL, 0⟩]⟩
      = stateMap (crawlLoop p c fuel
        ⟨[⟨p.startURL, 0⟩], [], [], responses, [], [⟨p.startURL, 0⟩]⟩) := by
    rw [← h2]
    exact crawlLoop_stateMap p c fuel _
  refine ⟨?_, ?_, ?_, ?_⟩
  · show (crawlLoop p c fuel
        ⟨[⟨p.startURL, 0⟩], [], [], respsMap responses, [], [⟨p.startURL, 0⟩]⟩).batches
        = (crawlLoop p c fuel
        ⟨[⟨p.startURL, 0⟩], [], [], responses, [], [⟨p.startURL, 0⟩]⟩).batches
    rw [hkey]
    rfl
  · show (crawlLoop p c fuel
        ⟨[⟨p.startURL, 0⟩], [], [], respsMap responses, [], [⟨p.startURL, 0⟩]⟩).enqueued
        = (crawlLoop p c fuel
        ⟨[⟨p.startURL, 0⟩], [], [], responses, [], [⟨p.startURL, 0⟩]⟩).enqueued
    rw [hkey]
    rfl
  · show (crawlLoop p c fuel
        ⟨[⟨p.startURL, 0⟩], [], [], respsMap responses, [], [⟨p.startURL, 0⟩]⟩).visited
        = (crawlLoop p c fuel
        ⟨[⟨p.startURL, 0⟩], [], [], responses, [], [⟨p.startURL, 0⟩]⟩).visited
    rw [hkey]
    rfl
  · show (crawlLoop p c fuel
        ⟨[⟨p.startURL, 0⟩], [], [], respsMap responses, [], [⟨p.startURL, 0⟩]⟩).results
        = (crawlLoop p c fuel
        ⟨[⟨p.startURL, 0⟩], [], [], responses, [], [⟨p.startURL, 0⟩]⟩).results.map setSuccess
    rw [hkey]
    rfl

/-- C8: every entry ever enqueued during a run has depth at most `maxDepth`:
the seed enters at depth 0, and a page expands into entries at `depth + 1`
only when its own depth is strictly below `maxDepth` (crawler.go:453). -/
theorem claim8_depth_bound (p : CrawlParams) (c : Nat → Bool)
    (responses : List (Option (List PageResult))) (fuel : Nat) :
    (StartBatchRecursiveCrawling p c responses fuel).enqueued.head?
      = some ⟨p.startURL, 0⟩ ∧
    ∀ e ∈ (StartBatchRecursiveCrawling p c responses fuel).enqueued,
      e.depth ≤ p.maxDepth := by
  have h := crawlLoop_enqueued_inv p c fuel
    ⟨[⟨p.startURL, 0⟩], [], [], responses, [], [⟨p.startURL, 0⟩]⟩
    ⟨p.startURL, 0⟩ rfl
    (by
      intro e he
      have : e = ⟨p.startURL, 0⟩ := by simpa using he
      rw [this]
      exact Nat.zero_le _)
  exact h

theorem claim8_depth_bound_witness :
    (StartBatchRecursiveCrawling ⟨"http://h/", 2, 10, 5⟩ (fun _ => false)
      [] 3).enqueued.head? = some ⟨"http://h/", 0⟩ ∧
    (⟨"http://h/", 0⟩ : URLWithDepth).depth ≤ 2 :=
  ⟨(claim8_depth_bound ⟨"http://h/", 2, 10, 5⟩ (fun _ => false) [] 3).1,
   (claim8_depth_bound ⟨"http://h/", 2, 10, 5⟩ (fun _ => false) [] 3).2
     ⟨"http://h/", 0⟩ (by decide)⟩

/-- C9: extraction equals first-seen deduplication of the stream of trimmed,
scheme-filtered, resolved candidates; its output has no duplicates; fragment,
javascript and mailto candidates contribute nothing, as do candidates whose
resolution fails (no error is ever surfaced — the function is total); outputs
are absolute whenever the base URL is; extraction is idempotent on identical
input. -/
theorem claim9_extraction_spec (html baseURL : String) :
    ExtractURLsFromHTML html baseURL
      = dedupGo [] (candidateStream (hrefCaptures html) baseURL) ∧
    (ExtractURLsFromHTML html baseURL).Nodup ∧
    (∀ cap rest, skipCandidate (trimSpace cap) = true →
      candidateStream (cap :: rest) baseURL = candidateStream rest baseURL) ∧
    (∀ cap rest, makeAbsoluteURL (trimSpace cap) baseURL = none →
      candidateStream (cap :: rest) baseURL = candidateStream rest baseURL) ∧
    (isHttpAbs baseURL = true →
      ∀ u ∈ ExtractURLsFromHTML html baseURL, isHttpAbs u = true) ∧
    ExtractURLsFromHTML html baseURL = ExtractURLsFromHTML html baseURL := by
  have heq : ExtractURLsFromHTML html baseURL
      = dedupGo [] (candidateStream (hrefCaptures html) baseURL) :=
    extractLoop_eq_dedup baseURL (hrefCaptures html) []
  refine ⟨heq, ?_, ?_, ?_, ?_, rfl⟩
  · rw [heq]
    exact (dedupGo_nodup_notin (candidateStream (hrefCaptures html) baseURL) []).1
  · intro cap rest h
    simp [candidateStream, List.filterMap_cons, h]
  · intro cap rest h
    by_cases hskip : skipCandidate (trimSpace cap)
    · simp [candidateStream, List.filterMap_cons, hskip]
    · simp [candidateStream, List.filterMap_cons, hskip, h]
  · intro hb u hu
    rw [heq] at hu
    exact candidateStream_abs baseURL hb (hrefCaptures html) u
      (dedupGo_subset (candidateStream (hrefCaptures html) baseURL) [] u hu)

theorem claim9_extraction_spec_witness :
    (∀ u ∈ ExtractURLsFromHTML "<a href=\"/a\"><a href=\"#f\">" "http://h/base/",
      isHttpAbs u = true) ∧
    candidateStream ["#f", "/a"] "http://h/base/"
      = candidateStream ["/a"] "http://h/base/" ∧
    candidateStream ["b\u0001d", "/a"] "http://h/base/"
      = candidateStream ["/a"] "http://h/base/" :=
  ⟨(claim9_extraction_spec "<a href=\"/a\"><a href=\"#f\">" "http://h/base/").2.2.2.2.1
     (by decide),
   (claim9_extraction_spec "x" "http://h/base/").2.2.1 "#f" ["/a"] (by decide),
   (claim9_extraction_spec "x" "http://h/base/").2.2.2.1 "b\u0001d" ["/a"]
     (by decide)⟩

/-- C10: `StartBatchRecursiveCrawling` always returns a response (its Go
error result is the literal `nil`, crawler.go:515), the returned `Success` is
true exactly when at least one result was aggregated, and a run whose every
dispatch fails reports `Success = false` without surfacing an error. -/
theorem claim10_total_response (p : CrawlParams) (c : Nat → Bool)
    (responses : List (Option (List PageResult))) (fuel : Nat) :
    ((StartBatchRecursiveCrawling p c responses fuel).success = true ↔
      (StartBatchRecursiveCrawling p c responses fuel).results ≠ []) ∧
    ((∀ r ∈ responses, r = none) →
      (StartBatchRecursiveCrawling p c responses fuel).success = false) := by
  constructor
  · show (!(crawlLoop p c fuel
        ⟨[⟨p.startURL, 0⟩], [], [], responses, [], [⟨p.startURL, 0⟩]⟩).results.isEmpty)
        = true ↔ (crawlLoop p c fuel
        ⟨[⟨p.startURL, 0⟩], [], [], responses, [], [⟨p.startURL, 0⟩]⟩).results ≠ []
    cases hres : (crawlLoop p c fuel
        ⟨[⟨p.startURL, 0⟩], [], [], responses, [], [⟨p.startURL, 0⟩]⟩).results with
    | nil => simp [hres]
    | cons r rs => simp [hres]
  · intro hn
    have h := crawlLoop_all_none p c fuel
      ⟨[⟨p.startURL, 0⟩], [], [], responses, [], [⟨p.startURL, 0⟩]⟩ hn
    show (!(crawlLoop p c fuel
        ⟨[⟨p.startURL, 0⟩], [], [], responses, [], [⟨p.startURL, 0⟩]⟩).results.isEmpty)
        = false
    rw [h]
    rfl

theorem claim10_total_response_witness :
    ((StartBatchRecursiveCrawling ⟨"http://h/", 2, 10, 5⟩ (fun _ => false)
        [none] 5).success = true ↔
      (StartBatchRecursiveCrawling ⟨"http://h/", 2, 10, 5⟩ (fun _ => false)
        [none] 5).results ≠ []) ∧
    (StartBatchRecursiveCrawling ⟨"http://h/", 2, 10, 5⟩ (fun _ => false)
      [none] 5).success = false :=
  ⟨(claim10_total_response ⟨"http://h/", 2, 10, 5⟩ (fun _ => false) [none] 5).1,
   (claim10_total_response ⟨"http://h/", 2, 10, 5⟩ (fun _ => false) [none] 5).2
     (by decide)⟩

end Crawlr
